import Mathlib

/-!
Verification of pg2parquet's schema planner / appender tree / row-group
writer against its specification.  All definitions are shallow embeddings
of the Rust sources under `src/cli/src/`; machine integers (`i16`, `i32`,
`i64`, `usize`) are modelled as `Int`/`Nat` with explicit wrap-arounds
where the code can overflow.
-/

/-! ## Level index tracking (`src/cli/src/level_index.rs`) -/

/-- `LevelIndexList`: a linked list of per-level repetition indices along the
current nesting path, from the leaf back to the root (`parent` pointers).
The `level` field of the Rust struct is always the depth of the node
(`new_i` creates level 0, `new_child` adds 1), so it is derived here. -/
inductive LevelIndexList where
  | root (index : Nat)
  | child (index : Nat) (parent : LevelIndexList)
deriving Repr, DecidableEq

namespace LevelIndexList

/-- The `level` field: depth of the node. -/
def level : LevelIndexList → Nat
  | .root _ => 0
  | .child _ p => p.level + 1

/-- `new_child`: a fresh child entry at index 0 (`level_index.rs`, `new_child`). -/
def new_child (l : LevelIndexList) : LevelIndexList := .child 0 l

/-- The index stored at the node itself. -/
def index : LevelIndexList → Nat
  | .root i => i
  | .child i _ => i

/-- The index stored at the root of the path (the row number). -/
def rootIndex : LevelIndexList → Nat
  | .root i => i
  | .child _ p => p.rootIndex

/-- The indices along the path, listed from the root to the leaf. -/
def indexList : LevelIndexList → List Nat
  | .root i => [i]
  | .child i p => p.indexList ++ [i]

theorem indexList_length (l : LevelIndexList) : l.indexList.length = l.level + 1 := by
  induction l with
  | root i => rfl
  | child i p ih => simp [indexList, level, ih]

end LevelIndexList

/-- Total indexing into a remembered-prefix vector (the Rust code indexes
`self.indexes[i]` which is always in bounds thanks to the
`debug_assert_eq!(self.level(), other.level)` establishing the length). -/
def nth : List Nat → Nat → Nat
  | [], _ => 0
  | x :: _, 0 => x
  | _ :: xs, i + 1 => nth xs i

theorem nth_set_eq (l : List Nat) (i : Nat) (v : Nat) (h : i < l.length) :
    nth (l.set i v) i = v := by
  induction l generalizing i with
  | nil => simp at h
  | cons x xs ih =>
      cases i with
      | zero => rfl
      | succ j => exact ih j (by simpa using h)

theorem nth_set_ne (l : List Nat) (i j : Nat) (v : Nat) (h : i ≠ j) :
    nth (l.set i v) j = nth l j := by
  induction l generalizing i j with
  | nil => simp [List.set]
  | cons x xs ih =>
      cases i with
      | zero => cases j with
          | zero => exact absurd rfl h
          | succ k => rfl
      | succ i' => cases j with
          | zero => rfl
          | succ k => exact ih i' k (by omega)

theorem nth_append_lt (xs ys : List Nat) (i : Nat) (h : i < xs.length) :
    nth (xs ++ ys) i = nth xs i := by
  induction xs generalizing i with
  | nil => simp at h
  | cons x t ih =>
      cases i with
      | zero => rfl
      | succ j => exact ih j (by simpa using h)

theorem nth_append_last (xs : List Nat) (y : Nat) :
    nth (xs ++ [y]) xs.length = y := by
  induction xs with
  | nil => rfl
  | cons x t ih => simpa using ih

/-- `usize::MAX`, the sentinel stored by `LevelIndexState::new`. -/
def usizeMAX : Nat := 2 ^ 64 - 1

/-- `LevelIndexState::new(level)`: `level + 1` sentinel entries. -/
def LevelIndexState.new (level : Nat) : List Nat :=
  List.replicate (level + 1) usizeMAX

/-- Merge of two `result` assignments in the `copy_and_diff` loop: the loop
walks leaf → root and keeps the latest assignment, so an assignment made at
an outer level (processed later, `a`) wins over an inner one (`b`). -/
def pickOuterGen {α : Type} : Option α → Option α → Option α
  | some a, _ => some a
  | none, b => b

/-- The body of the `copy_and_diff` loop (`level_index.rs:72`), run from the
leaf towards the root following the `parent` pointers.  The `Option Nat` is
the value of `result` if some processed iteration has overwritten it
(`none` = no level differed so far). -/
def copyAndDiffAux : List Nat → LevelIndexList → List Nat × Option Nat
  | s, .root idx =>
      if nth s 0 = idx then (s, none) else (s.set 0 idx, some 0)
  | s, .child idx p =>
      let n := p.level + 1
      let s1 := if nth s n = idx then s else s.set n idx
      let r1 : Option Nat := if nth s n = idx then none else some n
      let r2 := copyAndDiffAux s1 p
      (r2.1, pickOuterGen r2.2 r1)

/-- `LevelIndexState::copy_and_diff`: overwrite the differing remembered
entries and return the outermost differing level; `result` is initialised to
`other.level` and returned unchanged when no entry differs. -/
def copyAndDiff (s : List Nat) (l : LevelIndexList) : List Nat × Nat :=
  ((copyAndDiffAux s l).1, (copyAndDiffAux s l).2.getD l.level)

/-- Spec-side description of the returned level: the outermost (root-most)
level at which the path's index differs from the remembered prefix, `none`
when no level differs. -/
def specOutermostDiff (s : List Nat) (ixs : List Nat) : Option Nat :=
  (List.range ixs.length).find? (fun i => nth s i ≠ nth ixs i)

theorem findq_append {α : Type} (p : α → Bool) (xs ys : List α) :
    (xs ++ ys).find? p = pickOuterGen (xs.find? p) (ys.find? p) := by
  induction xs with
  | nil => simp [pickOuterGen]
  | cons x t ih =>
      by_cases h : p x
      · simp [List.find?_cons_of_pos _ h, pickOuterGen]
      · simpa [List.find?_cons_of_neg _ h] using ih

theorem findq_range_congr (n : Nat) (p q : Nat → Bool) (h : ∀ i, i < n → p i = q i) :
    (List.range n).find? p = (List.range n).find? q := by
  induction n with
  | zero => rfl
  | succ m ih =>
      rw [List.range_succ, findq_append, findq_append]
      rw [ih (fun i hi => h i (Nat.lt_succ_of_lt hi))]
      have hm := h m (Nat.lt_succ_self m)
      simp [List.find?, hm]

theorem drop_eq_nth_cons (s : List Nat) (n : Nat) (h : n < s.length) :
    s.drop n = nth s n :: s.drop (n + 1) := by
  induction s generalizing n with
  | nil => simp at h
  | cons x t ih =>
      cases n with
      | zero => rfl
      | succ m => exact ih m (by simpa using h)

theorem drop_set_succ (s : List Nat) (n : Nat) (v : Nat) :
    (s.set n v).drop (n + 1) = s.drop (n + 1) := by
  induction s generalizing n with
  | nil => rfl
  | cons x t ih =>
      cases n with
      | zero => rfl
      | succ m => simpa using ih m

theorem set_length (s : List Nat) (n : Nat) (v : Nat) :
    (s.set n v).length = s.length := by
  exact List.length_set s n v

theorem copyAndDiffAux_state (l : LevelIndexList) (s : List Nat)
    (h : l.level + 1 ≤ s.length) :
    (copyAndDiffAux s l).1 = l.indexList ++ s.drop (l.level + 1) := by
  induction l generalizing s with
  | root i =>
      cases s with
      | nil => simp [LevelIndexList.level] at h
      | cons x t =>
          simp only [copyAndDiffAux, LevelIndexList.indexList, LevelIndexList.level, nth]
          by_cases hx : x = i
          · simp [hx]
          · simp [hx, List.set]
  | child idx p ih =>
      have hn : p.level + 1 < s.length := by
        simp [LevelIndexList.level] at h; omega
      by_cases hi : nth s (p.level + 1) = idx
      · simp only [copyAndDiffAux, hi, if_pos]
        rw [ih s (Nat.le_of_lt hn)]
        rw [drop_eq_nth_cons s (p.level + 1) hn, hi]
        simp [LevelIndexList.indexList, LevelIndexList.level]
      · simp only [copyAndDiffAux, hi, if_neg, not_false_iff]
        have hlen : p.level + 1 ≤ (s.set (p.level + 1) idx).length := by
          rw [set_length]; omega
        rw [ih _ hlen]
        have h1 : (s.set (p.level + 1) idx).drop (p.level + 1)
            = idx :: s.drop (p.level + 2) := by
          rw [drop_eq_nth_cons _ _ (by rw [set_length]; exact hn),
            nth_set_eq _ _ _ hn, drop_set_succ]
        rw [h1]
        simp [LevelIndexList.indexList, LevelIndexList.level]

theorem nth_set_lt_level (s : List Nat) (n i v : Nat) (h : i ≠ n) :
    nth (s.set n v) i = nth s i := nth_set_ne s n i v (fun he => h he.symm)

theorem copyAndDiffAux_result (l : LevelIndexList) (s : List Nat)
    (h : l.level + 1 ≤ s.length) :
    (copyAndDiffAux s l).2 = specOutermostDiff s l.indexList := by
  induction l generalizing s with
  | root i =>
      simp only [copyAndDiffAux, specOutermostDiff, LevelIndexList.indexList]
      by_cases hi : nth s 0 = i
      · simp [hi, List.find?, nth]
      · simp [hi, List.find?, nth]
  | child idx p ih =>
      have hn : p.level + 1 < s.length := by
        simp [LevelIndexList.level] at h; omega
      have hplen : p.indexList.length = p.level + 1 := p.indexList_length
      have hclen : (LevelIndexList.child idx p).indexList.length = p.level + 2 := by
        simp [LevelIndexList.indexList, hplen]
      -- the spec value decomposes along `range (n+1) = range n ++ [n]`
      have hspec : specOutermostDiff s (LevelIndexList.child idx p).indexList
          = pickOuterGen (specOutermostDiff s p.indexList)
              (if nth s (p.level + 1) = idx then none else some (p.level + 1)) := by
        unfold specOutermostDiff
        rw [hclen, hplen, List.range_succ, findq_append]
        congr 1
        · apply findq_range_congr
          intro i hilt
          have : nth (LevelIndexList.child idx p).indexList i = nth p.indexList i := by
            simp only [LevelIndexList.indexList]
            exact nth_append_lt _ _ i (by omega)
          simp [this]
        · have : nth (LevelIndexList.child idx p).indexList (p.level + 1) = idx := by
            simp only [LevelIndexList.indexList]
            have := nth_append_last p.indexList idx
            rwa [hplen] at this
          by_cases hi : nth s (p.level + 1) = idx
          · simp [List.find?, this, hi]
          · simp [List.find?, this, hi]
      by_cases hi : nth s (p.level + 1) = idx
      · simp only [copyAndDiffAux, hi, if_pos]
        rw [ih s (Nat.le_of_lt hn), hspec, if_pos hi]
      · simp only [copyAndDiffAux, hi, if_neg, not_false_iff]
        have hlen : p.level + 1 ≤ (s.set (p.level + 1) idx).length := by
          rw [set_length]; omega
        rw [ih _ hlen, hspec, if_neg hi]
        -- the prefix comparison is unaffected by setting position p.level+1
        have : specOutermostDiff (s.set (p.level + 1) idx) p.indexList
            = specOutermostDiff s p.indexList := by
          unfold specOutermostDiff
          apply findq_range_congr
          intro i hilt
          rw [hplen] at hilt
          rw [nth_set_lt_level s (p.level + 1) i idx (by omega)]
        rw [this]

theorem nth_replicate (n c v : Nat) (h : n < c) :
    nth (List.replicate c v) n = v := by
  induction c generalizing n with
  | zero => omega
  | succ m ih =>
      cases n with
      | zero => rfl
      | succ k => exact ih k (by omega)

theorem nth_indexList_zero (l : LevelIndexList) :
    nth l.indexList 0 = l.rootIndex := by
  induction l with
  | root i => rfl
  | child i p ih =>
      simp only [LevelIndexList.indexList, LevelIndexList.rootIndex]
      rw [nth_append_lt _ _ 0 (by rw [p.indexList_length]; omega), ih]

/-- **C2**: `LevelIndexState::copy_and_diff`, called with a remembered prefix
of the right length, returns the outermost (root-most) level at which the
path's index differs from the remembered prefix (keeping `max_rl` when no
level differs), and overwrites the remembered entries with the path's
indices; on a fresh sentinel-initialised state whose root index is not
`usize::MAX`, the call returns 0, so the first record emitted by a leaf
appender has RL = 0. -/
theorem C2_copy_and_diff (s : List Nat) (l : LevelIndexList)
    (hlen : s.length = l.level + 1) :
    (copyAndDiff s l).2 = (specOutermostDiff s l.indexList).getD l.level
    ∧ (copyAndDiff s l).1 = l.indexList
    ∧ (s = LevelIndexState.new l.level → l.rootIndex ≠ usizeMAX →
        (copyAndDiff s l).2 = 0) := by
  refine ⟨?_, ?_, ?_⟩
  · simp only [copyAndDiff]
    rw [copyAndDiffAux_result l s (by omega)]
  · simp only [copyAndDiff]
    rw [copyAndDiffAux_state l s (by omega)]
    rw [← hlen, List.drop_length, List.append_nil]
  · intro hs hroot
    simp only [copyAndDiff]
    rw [copyAndDiffAux_result l s (by omega)]
    have hfind : specOutermostDiff s l.indexList = some 0 := by
      unfold specOutermostDiff
      rw [l.indexList_length, List.range_succ_eq_map]
      have h0 : nth s 0 ≠ nth l.indexList 0 := by
        rw [hs, nth_indexList_zero, LevelIndexState.new, nth_replicate _ _ _ (by omega)]
        exact fun he => hroot he.symm
      simp [List.find?, h0]
    rw [hfind]
    rfl

/-- Witness for C2: a fresh two-level tracker state and the path `0 → 0`
(root index 0), as produced for the first element of the first row. -/
theorem C2_copy_and_diff_witness :
    (copyAndDiff (LevelIndexState.new 1)
      (LevelIndexList.child 0 (LevelIndexList.root 0))).2 = 0 :=
  (C2_copy_and_diff (LevelIndexState.new 1)
      (LevelIndexList.child 0 (LevelIndexList.root 0)) (by decide)).2.2 rfl (by decide)

/-! ## Column appender interface (`src/cli/src/appenders/interface.rs`) -/

/-- The `ColumnAppender` trait with explicit state passing: a column appender
over state type `σ` consuming values of type `α`.  `copy_value` and
`write_null` return the updated state plus the byte-size estimate.  (Errors
returned through `Result` in Rust are fatal for the whole export and no
modelled appender produces one, so the wrapper is omitted here.) -/
structure Appender (σ : Type) (α : Type) where
  max_dl : Int
  max_rl : Int
  copy_value : σ → LevelIndexList → α → σ × Nat
  write_null : σ → LevelIndexList → Int → σ × Nat

/-- The default `copy_value_opt` of the `ColumnAppender` trait
(`interface.rs:18`): `None` is written as a NULL record one definition level
below `max_dl`. -/
def Appender.copy_value_opt {σ α : Type} (a : Appender σ α) (s : σ)
    (ri : LevelIndexList) : Option α → σ × Nat
  | some v => a.copy_value s ri v
  | none => a.write_null s ri (a.max_dl - 1)

/-! ## Generic (primitive) column appender (`src/cli/src/appenders/generic.rs`) -/

/-- The buffers of `GenericColumnAppender`: converted values, definition
levels, repetition levels and the remembered repetition-index prefix. -/
structure GCAState (α : Type) where
  column : List α
  dls : List Int
  rls : List Int
  repetition_index : List Nat
deriving Repr

/-- `GenericColumnAppender::new`: empty buffers, sentinel-initialised
tracker of length `max_rl + 1`. -/
def GCAState.new (α : Type) (max_rl : Nat) : GCAState α :=
  ⟨[], [], [], LevelIndexState.new max_rl⟩

/-- `GenericColumnAppender` as an `Appender` (`generic.rs:105` and
`generic.rs:141`): `conversion` is the captured convert function and
`byteSize` the `RealMemorySize` of the converted value. -/
def gcaAppender {α β : Type} (max_dl max_rl : Int) (conversion : β → α)
    (byteSize : α → Nat) : Appender (GCAState α) β where
  max_dl := max_dl
  max_rl := max_rl
  copy_value := fun s ri v =>
    let pq := conversion v
    let s1 : GCAState α := { s with column := s.column ++ [pq] }
    let s2 : GCAState α :=
      if 0 < max_dl then { s1 with dls := s1.dls ++ [max_dl] } else s1
    let s3 : GCAState α :=
      if 0 < max_rl then
        let r := copyAndDiff s.repetition_index ri
        { s2 with rls := s2.rls ++ [(r.2 : Int)], repetition_index := r.1 }
      else s2
    (s3, byteSize pq + (if 0 < max_dl then 2 else 0) + (if 0 < max_rl then 2 else 0))
  write_null := fun s ri level =>
    let s1 : GCAState α := { s with dls := s.dls ++ [level] }
    if 0 < max_rl then
      let r := copyAndDiff s.repetition_index ri
      ({ s1 with rls := s1.rls ++ [(r.2 : Int)], repetition_index := r.1 }, 4)
    else (s1, 2)

/-! ## Array appender (`src/cli/src/appenders/array.rs`) -/

/-- The configuration fields of `ArrayColumnAppender` (its `new` asserts
`inner.max_rl = rl + 1`, `inner.max_dl = dl + 1 + allow_element_null`,
`allow_null ≤ dl` and `0 ≤ rl`). -/
structure ArrayAppenderCfg where
  dl : Int
  rl : Int
  allow_null : Bool
  allow_element_null : Bool

/-- The element loop of `ArrayColumnAppender::copy_value` (`array.rs:83`):
`itemNullable` is the compile-time `TItem::IS_NULLABLE`; elements of
non-nullable item instantiations always arrive as `some`.  Arguments after
the inner appender: state, accumulated bytes, current `nested_ri` index,
remaining elements; the nested index is incremented after every element
that is actually written (the skip branch leaves it unchanged). -/
def arrayLoop {σ β : Type} (inner : Appender σ β)
    (allowElementNull itemNullable : Bool) (parent : LevelIndexList) :
    σ → Nat → Nat → List (Option β) → σ × Nat × Nat
  | s, bytes, idx, [] => (s, bytes, idx)
  | s, bytes, idx, v :: rest =>
      if itemNullable && allowElementNull then
        let r := inner.copy_value_opt s (.child idx parent) v
        arrayLoop inner allowElementNull itemNullable parent r.1 (bytes + r.2) (idx + 1) rest
      else
        match v with
        | some x =>
            let r := inner.copy_value s (.child idx parent) x
            arrayLoop inner allowElementNull itemNullable parent r.1 (bytes + r.2) (idx + 1) rest
        | none => arrayLoop inner allowElementNull itemNullable parent s bytes idx rest

/-- `ArrayColumnAppender::copy_value` (`array.rs:78`): write the elements
through `nested_ri`; an array that emitted no element is written as one
NULL record in the inner appender at the list's own definition level. -/
def arrayCopyValue {σ β : Type} (cfg : ArrayAppenderCfg) (inner : Appender σ β)
    (itemNullable : Bool) (s : σ) (ri : LevelIndexList)
    (array : List (Option β)) : σ × Nat :=
  let r := arrayLoop inner cfg.allow_element_null itemNullable ri s 0 0 array
  if r.2.2 = 0 then
    let w := inner.write_null r.1 (.child r.2.2 ri) cfg.dl
    (w.1, r.2.1 + w.2)
  else (r.1, r.2.1)

/-- `ArrayColumnAppender::copy_value_opt` (`array.rs:105`): a NULL array is
one NULL record at `dl - allow_null` in the inner appender. -/
def arrayCopyValueOpt {σ β : Type} (cfg : ArrayAppenderCfg) (inner : Appender σ β)
    (itemNullable : Bool) (s : σ) (ri : LevelIndexList) :
    Option (List (Option β)) → σ × Nat
  | some array => arrayCopyValue cfg inner itemNullable s ri array
  | none => inner.write_null s ri.new_child (cfg.dl - (if cfg.allow_null then 1 else 0))

/-- `ArrayColumnAppender::write_null` (`array.rs:40`): NULLs above the list
propagate to a single child record at the parent's level. -/
def arrayWriteNull {σ β : Type} (inner : Appender σ β) (s : σ)
    (ri : LevelIndexList) (level : Int) : σ × Nat :=
  inner.write_null s ri.new_child level

/-! ## Merged (struct) appenders (`src/cli/src/appenders/merged.rs`) -/

/-- One observable call received by a child appender. -/
inductive AppCall (α : Type) where
  | value (ri : LevelIndexList) (v : α)
  | null (ri : LevelIndexList) (level : Int)
deriving Repr

/-- A child appender that records the calls it receives (used to observe
what a merged appender forwards to its children). -/
def recordingAppender {α : Type} (max_dl max_rl : Int) :
    Appender (List (AppCall α)) α where
  max_dl := max_dl
  max_rl := max_rl
  copy_value := fun s ri v => (s ++ [.value ri v], 0)
  write_null := fun s ri lvl => (s ++ [.null ri lvl], 0)

/-- `DynamicMergedAppender::copy_value` (`merged.rs:45`): forward the same
repetition index and (borrowed) value to every child in order, summing the
byte counts.  The heterogeneous boxed children are modelled as a list of
appenders over a common state type, paired positionally with their states. -/
def dynMergedCopyValue {σ α : Type} :
    List (Appender σ α) → List σ → LevelIndexList → α → List σ × Nat
  | c :: cs, s :: ss, ri, v =>
      let r := c.copy_value s ri v
      let rest := dynMergedCopyValue cs ss ri v
      (r.1 :: rest.1, r.2 + rest.2)
  | _, _, _, _ => ([], 0)

/-- `DynamicMergedAppender::write_null` (`merged.rs:20`): forward the same
`(repetition_index, level)` pair to every child. -/
def dynMergedWriteNull {σ α : Type} :
    List (Appender σ α) → List σ → LevelIndexList → Int → List σ × Nat
  | c :: cs, s :: ss, ri, lvl =>
      let r := c.write_null s ri lvl
      let rest := dynMergedWriteNull cs ss ri lvl
      (r.1 :: rest.1, r.2 + rest.2)
  | _, _, _, _ => ([], 0)

/-- A row-level operation hitting an appender: the two mutating entry
points of the `ColumnAppender` trait. -/
inductive RowOp (α : Type) where
  | copy (ri : LevelIndexList) (v : α)
  | wnull (ri : LevelIndexList) (level : Int)

/-- The call a recording child observes for a broadcast operation. -/
def opCall {α : Type} : RowOp α → AppCall α
  | .copy ri v => .value ri v
  | .wnull ri lvl => .null ri lvl

/-- The call a recording child behind a projection `f` observes. -/
def opCallMap {α β : Type} (f : α → β) : RowOp α → AppCall β
  | .copy ri v => .value ri (f v)
  | .wnull ri lvl => .null ri lvl

/-- Run one operation through a dynamic merged appender. -/
def dynStep {σ α : Type} (cs : List (Appender σ α)) (ss : List σ) :
    RowOp α → List σ
  | .copy ri v => (dynMergedCopyValue cs ss ri v).1
  | .wnull ri lvl => (dynMergedWriteNull cs ss ri lvl).1

/-- Run a sequence of operations through a dynamic merged appender. -/
def dynRun {σ α : Type} (cs : List (Appender σ α)) (ss : List σ) :
    List (RowOp α) → List σ
  | [] => ss
  | op :: ops => dynRun cs (dynStep cs ss op) ops

/-- `StaticMergedAppenderImpl` (`merged.rs:83`): `next` is written first,
then `appender`; state is the pair `(next, appender)`. -/
def staticMergedImpl {σn σa α : Type} (next : Appender σn α)
    (app : Appender σa α) : Appender (σn × σa) α where
  max_dl := next.max_dl
  max_rl := next.max_rl
  copy_value := fun s ri v =>
    let x := next.copy_value s.1 ri v
    let y := app.copy_value s.2 ri v
    ((x.1, y.1), x.2 + y.2)
  write_null := fun s ri lvl =>
    let x := next.write_null s.1 ri lvl
    let y := app.write_null s.2 ri lvl
    ((x.1, y.1), x.2 + y.2)

/-- `StaticMergedAppenderNil` (`merged.rs:115`). -/
def staticMergedNil {α : Type} (max_dl max_rl : Int) : Appender Unit α where
  max_dl := max_dl
  max_rl := max_rl
  copy_value := fun s _ _ => (s, 0)
  write_null := fun s _ _ => (s, 0)

/-- `PreprocessAppender` (`helpers.rs:7`): apply the projection before
forwarding a value; `write_null` passes through unchanged. -/
def preprocessAppender {σ α β : Type} (f : α → β) (app : Appender σ β) :
    Appender σ α where
  max_dl := app.max_dl
  max_rl := app.max_rl
  copy_value := fun s ri v => app.copy_value s ri (f v)
  write_null := app.write_null

/-- `BasicPgRowColumnAppender` (`pg_column.rs:46`): read `Option<TPg>` out
of the row (`ab_get`, given here as a function) and dispatch through
`copy_value_opt`. -/
def basicPgRowColumnAppender {σ ρ β : Type} (abGet : ρ → Option β)
    (inner : Appender σ β) : Appender σ ρ where
  max_dl := inner.max_dl
  max_rl := inner.max_rl
  copy_value := fun s ri row => inner.copy_value_opt s ri (abGet row)
  write_null := inner.write_null

/-- Run a sequence of operations through any appender. -/
def appRunOps {σ α : Type} (a : Appender σ α) (s : σ) : List (RowOp α) → σ
  | [] => s
  | .copy ri v :: ops => appRunOps a (a.copy_value s ri v).1 ops
  | .wnull ri lvl :: ops => appRunOps a (a.write_null s ri lvl).1 ops

/-- **C1**: for every array column appender, an empty array is exactly one
NULL record in the inner appender at the array's own `max_dl`, a NULL array
(with `allow_null`) exactly one NULL record at `max_dl - 1`, both through
the same fresh child repetition index — distinct DL signatures, same RL
contribution. -/
theorem C1_array_empty_vs_null {σ β : Type} (cfg : ArrayAppenderCfg)
    (inner : Appender σ β) (itemNullable : Bool) (s : σ) (ri : LevelIndexList)
    (hnull : cfg.allow_null = true) :
    arrayCopyValue cfg inner itemNullable s ri []
      = inner.write_null s ri.new_child cfg.dl
    ∧ arrayCopyValueOpt cfg inner itemNullable s ri none
      = inner.write_null s ri.new_child (cfg.dl - 1)
    ∧ cfg.dl ≠ cfg.dl - 1
    ∧ (arrayCopyValue cfg
        (recordingAppender (cfg.dl + 1 + (if cfg.allow_element_null then 1 else 0)) (cfg.rl + 1))
        itemNullable ([] : List (AppCall β)) ri []).1
      = [AppCall.null ri.new_child cfg.dl]
    ∧ (arrayCopyValueOpt cfg
        (recordingAppender (cfg.dl + 1 + (if cfg.allow_element_null then 1 else 0)) (cfg.rl + 1))
        itemNullable ([] : List (AppCall β)) ri none).1
      = [AppCall.null ri.new_child (cfg.dl - 1)] := by
  refine ⟨?_, ?_, by omega, ?_, ?_⟩
  · simp [arrayCopyValue, arrayLoop, LevelIndexList.new_child]
  · simp [arrayCopyValueOpt, hnull]
  · simp [arrayCopyValue, arrayLoop, recordingAppender, LevelIndexList.new_child]
  · simp [arrayCopyValueOpt, hnull, recordingAppender, LevelIndexList.new_child]

/-- Witness for C1 at a concrete configuration (`dl = 2`, `rl = 0`, the
planner's `allow_null = true, allow_element_null = true` choice for
PostgreSQL arrays). -/
theorem C1_array_empty_vs_null_witness :
    arrayCopyValue ⟨2, 0, true, true⟩
        (recordingAppender 4 1) true ([] : List (AppCall Int))
        (LevelIndexList.root 0) []
      = (recordingAppender 4 1).write_null [] (LevelIndexList.root 0).new_child 2
    ∧ arrayCopyValueOpt ⟨2, 0, true, true⟩
        (recordingAppender 4 1) true ([] : List (AppCall Int))
        (LevelIndexList.root 0) none
      = (recordingAppender 4 1).write_null [] (LevelIndexList.root 0).new_child 1 :=
  ⟨(C1_array_empty_vs_null ⟨2, 0, true, true⟩ (recordingAppender 4 1) true []
      (LevelIndexList.root 0) rfl).1,
   (C1_array_empty_vs_null ⟨2, 0, true, true⟩ (recordingAppender 4 1) true []
      (LevelIndexList.root 0) rfl).2.1⟩

theorem dynMergedCopyValue_recording {α : Type} (dl rl : Int) (n : Nat)
    (ss : List (List (AppCall α))) (h : ss.length = n)
    (ri : LevelIndexList) (v : α) :
    (dynMergedCopyValue (List.replicate n (recordingAppender dl rl)) ss ri v).1
      = ss.map (fun t => t ++ [AppCall.value ri v]) := by
  induction n generalizing ss with
  | zero =>
      cases ss with
      | nil => rfl
      | cons a t => simp at h
  | succ m ih =>
      cases ss with
      | nil => simp at h
      | cons a t =>
          rw [List.replicate_succ]
          simp only [dynMergedCopyValue, List.map_cons]
          rw [ih t (by simpa using h)]
          rfl

theorem dynMergedWriteNull_recording {α : Type} (dl rl : Int) (n : Nat)
    (ss : List (List (AppCall α))) (h : ss.length = n)
    (ri : LevelIndexList) (lvl : Int) :
    (dynMergedWriteNull (List.replicate n (recordingAppender dl rl)) ss ri lvl).1
      = ss.map (fun t => t ++ [AppCall.null ri lvl]) := by
  induction n generalizing ss with
  | zero =>
      cases ss with
      | nil => rfl
      | cons a t => simp at h
  | succ m ih =>
      cases ss with
      | nil => simp at h
      | cons a t =>
          rw [List.replicate_succ]
          simp only [dynMergedWriteNull, List.map_cons]
          rw [ih t (by simpa using h)]
          rfl

theorem dynRun_recording {α : Type} (dl rl : Int) (n : Nat)
    (ops : List (RowOp α)) (ss : List (List (AppCall α))) (h : ss.length = n) :
    dynRun (List.replicate n (recordingAppender dl rl)) ss ops
      = ss.map (fun t => t ++ ops.map opCall) := by
  induction ops generalizing ss with
  | nil => simp [dynRun]
  | cons op ops ih =>
      have hstep : dynStep (List.replicate n (recordingAppender dl rl)) ss op
          = ss.map (fun t => t ++ [opCall op]) := by
        cases op with
        | copy ri v => exact dynMergedCopyValue_recording dl rl n ss h ri v
        | wnull ri lvl => exact dynMergedWriteNull_recording dl rl n ss h ri lvl
      simp only [dynRun, hstep]
      rw [ih _ (by simp [h])]
      simp [List.map_map, Function.comp_def, List.append_assoc, opCall]

theorem staticRun_recording {α β γ : Type} (dl rl dlf dlg rlf rlg : Int)
    (f : α → β) (g : α → γ) (ops : List (RowOp α))
    (t1 : List (AppCall β)) (t2 : List (AppCall γ)) :
    appRunOps
      (staticMergedImpl
        (staticMergedImpl (staticMergedNil dl rl)
          (preprocessAppender f (recordingAppender dlf rlf)))
        (preprocessAppender g (recordingAppender dlg rlg)))
      (((), t1), t2) ops
    = (((), t1 ++ ops.map (opCallMap f)), t2 ++ ops.map (opCallMap g)) := by
  induction ops generalizing t1 t2 with
  | nil => simp [appRunOps]
  | cons op ops ih =>
      cases op with
      | copy ri v =>
          have hstep :
              ((staticMergedImpl
                  (staticMergedImpl (staticMergedNil dl rl)
                    (preprocessAppender f (recordingAppender dlf rlf)))
                  (preprocessAppender g (recordingAppender dlg rlg))).copy_value
                (((), t1), t2) ri v).1
              = (((), t1 ++ [AppCall.value ri (f v)]), t2 ++ [AppCall.value ri (g v)]) := rfl
          simp only [appRunOps]
          rw [hstep, ih]
          simp [opCallMap, List.append_assoc]
      | wnull ri lvl =>
          have hstep :
              ((staticMergedImpl
                  (staticMergedImpl (staticMergedNil dl rl)
                    (preprocessAppender f (recordingAppender dlf rlf)))
                  (preprocessAppender g (recordingAppender dlg rlg))).write_null
                (((), t1), t2) ri lvl).1
              = (((), t1 ++ [AppCall.null ri lvl]), t2 ++ [AppCall.null ri lvl]) := rfl
          simp only [appRunOps]
          rw [hstep, ih]
          simp [opCallMap, List.append_assoc]

/-- **C3**: every merged (struct) appender broadcasts each operation to all
of its children — `copy_value` forwards the same repetition index and the
(projected) value, `write_null` the same `(repetition index, level)` pair —
so after any sequence of operations all children have received exactly the
same number of records (dynamic: identical call lists; static with
projections `f`, `g`: call lists of equal length, identical up to the
projection). -/
theorem C3_struct_broadcast {α β γ : Type} (n : Nat) (dl rl dlf dlg rlf rlg : Int)
    (f : α → β) (g : α → γ) (ops : List (RowOp α)) :
    dynRun (List.replicate n (recordingAppender dl rl))
        (List.replicate n ([] : List (AppCall α))) ops
      = List.replicate n (ops.map opCall)
    ∧ appRunOps
        (staticMergedImpl
          (staticMergedImpl (staticMergedNil dl rl)
            (preprocessAppender f (recordingAppender dlf rlf)))
          (preprocessAppender g (recordingAppender dlg rlg)))
        (((), []), []) ops
      = (((), ops.map (opCallMap f)), ops.map (opCallMap g))
    ∧ (ops.map (opCallMap f)).length = (ops.map (opCallMap g)).length := by
  refine ⟨?_, ?_, by simp⟩
  · rw [dynRun_recording dl rl n ops _ (List.length_replicate n []), List.map_replicate]
    simp
  · have := staticRun_recording dl rl dlf dlg rlf rlg f g ops [] []
    simpa using this

/-! ## Composite record decoding (`src/cli/src/pg_custom_types.rs`) -/

/-- `read_pg_len` (`pg_custom_types.rs:8`): big-endian `i32` from the first
four bytes of a slice; `none` models the panic when fewer than four bytes
remain. -/
def read_pg_len (bytes : List Nat) : Option Int :=
  match bytes with
  | b0 :: b1 :: b2 :: b3 :: _ =>
      let u : Nat := b0 * 2 ^ 24 + b1 * 2 ^ 16 + b2 * 2 ^ 8 + b3
      some (if u < 2 ^ 31 then (u : Int) else (u : Int) - 2 ^ 32)
  | _ => none

/-- Rust `x as usize` on an `i32` value: sign-extend to 64 bits, reinterpret
as unsigned. -/
def i32AsUsize (x : Int) : Nat := (x % 2 ^ 64).toNat

/-- The decoded `PgRawRecord`: the payload after the 4-byte column count,
and per wire column either `none` (SQL NULL, length −1) or the offset of
the column's length field inside `data`. -/
structure PgRawRecordM where
  data : List Nat
  fields : List (Option Nat)
deriving Repr, DecidableEq

/-- The field loop of `PgRawRecord::from_sql` (`pg_custom_types.rs:185`):
read `(oid, len)` per wire column; `len < 0` records a NULL and advances 4,
otherwise the offset of the length field is recorded and the cursor skips
the payload. -/
def recordReadFields (data : List Nat) : Nat → Nat → Option (List (Option Nat))
  | 0, _ => some []
  | n + 1, index => do
      let _oid ← read_pg_len (data.drop index)
      let len ← read_pg_len (data.drop (index + 4))
      if len < 0 then
        let rest ← recordReadFields data n (index + 8)
        some (none :: rest)
      else
        let rest ← recordReadFields data n (index + 8 + i32AsUsize len)
        some (some (index + 4) :: rest)

/-- `PgRawRecord::from_sql` (`pg_custom_types.rs:171`): read `num_cols`,
assert it does not exceed the declared field count, then scan the columns.
`none` models a panic / failed assertion. -/
def pgRawRecordFromSql (declaredFieldCount : Nat) (raw : List Nat) :
    Option PgRawRecordM := do
  let ncols ← read_pg_len raw
  let num_cols := i32AsUsize ncols
  if num_cols ≤ declaredFieldCount then
    let data := raw.drop 4
    let fields ← recordReadFields data num_cols 0
    some ⟨data, fields⟩
  else none

/-- `PgAbstractRow for PgRawRecord :: ab_get` (`pg_custom_types.rs:263`).
`Except.error` models a panic; `Except.ok none` is a NULL handed to
`T::from_sql_null`, `Except.ok (some bytes)` the field payload handed to
`T::from_sql`.  Note the guard is `fields.len() < index` (strictly less):
`index == fields.len()` falls through to `self.fields[index]` and panics. -/
def pgRawRecordAbGet (declaredFieldCount : Nat) (r : PgRawRecordM)
    (index : Nat) : Except String (Option (List Nat)) :=
  if declaredFieldCount ≤ index then .error "field type index out of bounds"
  else if r.fields.length < index then .ok none
  else
    match r.fields.get? index with
    | none => .error "values index out of bounds"
    | some none => .ok none
    | some (some x) =>
        match read_pg_len (r.data.drop x) with
        | none => .error "slice bounds"
        | some len =>
            let lenU := i32AsUsize len
            if x + 4 + lenU ≤ r.data.length then
              .ok (some ((r.data.drop (x + 4)).take lenU))
            else .error "slice bounds"

/-- A composite value for a 3-field declared type whose wire encoding
carries `num_cols = 1`: one `int4` column (oid 23, length 4, payload
`0x0000002A`). -/
def c4Raw : List Nat := [0, 0, 0, 1, 0, 0, 0, 23, 0, 0, 0, 4, 0, 0, 0, 42]

/-- The record `c4Raw` decodes to. -/
def c4Rec : PgRawRecordM := ⟨c4Raw.drop 4, [some 4]⟩

/-- **C4**: decoding a composite whose wire `num_cols` (1) is less than the
declared field count (3) succeeds, and `ab_get` returns the value at index
0 and NULL at index 2 — but at index 1 (`index == num_cols`) the guard
`fields.len() < index` is false and `self.fields[index]` panics, where the
claim requires NULL.  The claim fails on the boundary index; the spec's
"missing trailing fields → NULL" is clearly the intent of the guard, so
this is an off-by-one in the code (`<` instead of `<=`). -/
theorem C4_composite_trailing_field_panic :
    pgRawRecordFromSql 3 c4Raw = some c4Rec
    ∧ pgRawRecordAbGet 3 c4Rec 0 = .ok (some [0, 0, 0, 42])
    ∧ pgRawRecordAbGet 3 c4Rec 2 = .ok none
    ∧ pgRawRecordAbGet 3 c4Rec 1 = .error "values index out of bounds" := by
  refine ⟨by decide, rfl, rfl, rfl⟩

/-! ## Interval conversion (`src/cli/src/datatypes/interval.rs`) -/

/-- `PgInterval` (`interval.rs:8`), fields as decoded from the wire. -/
structure PgInterval where
  microseconds : Int
  days : Int
  months : Int
deriving Repr, DecidableEq

/-- Two's-complement truncation of an integer to `i32` (Rust `as i32`, and
the release-mode wrap-around of `i32` addition). -/
def wrap32 (x : Int) : Int := (x + 2 ^ 31) % 2 ^ 32 - 2 ^ 31

/-- `i32::to_le_bytes`. -/
def i32ToLeBytes (x : Int) : List Nat :=
  let u := (x % 2 ^ 32).toNat
  [u % 256, u / 2 ^ 8 % 256, u / 2 ^ 16 % 256, u / 2 ^ 24 % 256]

/-- `MyFrom<PgInterval> for FixedLenByteArray` (`interval.rs:27`): truncate
microseconds to milliseconds, carry whole days out of the milliseconds
(Rust `/` and `%` truncate toward zero), serialise as three little-endian
`i32` values `(months, days, millis)`. -/
def intervalMyFrom (t : PgInterval) : List Nat :=
  let ms_per_day : Int := 1000 * 60 * 60 * 24
  let millis_total := t.microseconds.tdiv 1000
  let days := millis_total.tdiv ms_per_day
  let millis := millis_total.tmod ms_per_day
  i32ToLeBytes t.months
    ++ i32ToLeBytes (wrap32 (t.days + wrap32 days))
    ++ i32ToLeBytes (wrap32 millis)

/-- The claim's formula for the payload: whole days carried out of the
microseconds by mathematical floor division, milliseconds from the
mathematical (nonnegative) remainder. -/
def specIntervalBytes (t : PgInterval) : List Nat :=
  let usPerDay : Int := 86400000000
  let days_out := t.days + t.microseconds.fdiv usPerDay
  let millis_out := (t.microseconds.emod usPerDay).tdiv 1000
  i32ToLeBytes t.months ++ i32ToLeBytes days_out ++ i32ToLeBytes millis_out

/-- **C5 counterexample**: for `microseconds = -1000` the code truncates
toward zero (days stay 0, millis component −1) while the claim's floor/mod
formula carries −1 days and 86 399 999 millis. -/
theorem C5_interval_floor_counterexample :
    intervalMyFrom ⟨-1000, 0, 0⟩ ≠ specIntervalBytes ⟨-1000, 0, 0⟩ := by
  decide

theorem wrap32_eq_self (x : Int) (h1 : -2 ^ 31 ≤ x) (h2 : x < 2 ^ 31) :
    wrap32 x = x := by
  unfold wrap32
  have h : (x + 2 ^ 31) % 2 ^ 32 = x + 2 ^ 31 :=
    Int.emod_eq_of_lt (by omega) (by omega)
  omega

theorem interval_days_key (n : Nat) :
    ((n : Int).tdiv 1000).tdiv (1000 * 60 * 60 * 24)
      = ((n / 86400000000 : Nat) : Int) := by
  have h : ((n : Int).tdiv 1000).tdiv (1000 * 60 * 60 * 24)
      = ((n / 1000 / 86400000 : Nat) : Int) := rfl
  rw [h, Nat.div_div_eq_div_mul]

theorem interval_fdiv_key (n : Nat) :
    (n : Int).fdiv 86400000000 = ((n / 86400000000 : Nat) : Int) := by
  have h : (86400000000 : Int) = ((86400000000 : Nat) : Int) := by norm_cast
  rw [h, Int.fdiv_eq_ediv _ (by positivity)]
  exact (Int.ofNat_div n 86400000000).symm

theorem interval_millis_code (n : Nat) :
    ((n : Int).tdiv 1000).tmod (1000 * 60 * 60 * 24)
      = ((n / 1000 % 86400000 : Nat) : Int) := rfl

theorem interval_millis_spec (n : Nat) :
    ((n : Int).emod 86400000000).tdiv 1000
      = ((n % 86400000000 / 1000 : Nat) : Int) := rfl

theorem interval_millis_key (n : Nat) :
    n % 86400000000 / 1000 = n / 1000 % 86400000 := by
  have h := Nat.mod_mul_right_div_self n 1000 86400000
  norm_num at h
  exact h

/-- **C5 (amended)**: for nonnegative `microseconds` (with the results in
`i32` range) the 12-byte little-endian layout is exactly
`(months, days + ⌊μs / 86 400 000 000⌋, (μs mod 86 400 000 000) / 1000)`;
for negative `microseconds` the code truncates toward zero instead of
flooring (see the counterexample), so the original "for all inputs,
including negative microseconds" fails. -/
theorem C5_interval_encoding_amended (t : PgInterval)
    (h0 : 0 ≤ t.microseconds) (h1 : t.microseconds < 2 ^ 63)
    (hd0 : -2 ^ 31 ≤ t.days + t.microseconds.fdiv 86400000000)
    (hd1 : t.days + t.microseconds.fdiv 86400000000 < 2 ^ 31) :
    intervalMyFrom t = specIntervalBytes t := by
  obtain ⟨us, d, mo⟩ := t
  simp only at h0 h1 hd0 hd1
  obtain ⟨n, rfl⟩ : ∃ n : Nat, us = (n : Int) :=
    ⟨us.toNat, (Int.toNat_of_nonneg h0).symm⟩
  have hn63 : n < 2 ^ 63 := by exact_mod_cast h1
  simp only [intervalMyFrom, specIntervalBytes]
  rw [interval_days_key, interval_millis_code, interval_fdiv_key,
    interval_millis_spec, interval_millis_key]
  rw [interval_fdiv_key] at hd0 hd1
  have hdQ : n / 86400000000 < 2 ^ 31 := by
    have h2 : n < 2 ^ 31 * 86400000000 := by omega
    omega
  have hw1 : wrap32 ((n / 86400000000 : Nat) : Int) = ((n / 86400000000 : Nat) : Int) := by
    apply wrap32_eq_self
    · omega
    · exact_mod_cast hdQ
  have hmQ : n / 1000 % 86400000 < 2 ^ 31 := by
    have h3 : n / 1000 % 86400000 < 86400000 := Nat.mod_lt _ (by norm_num)
    omega
  have hw2 : wrap32 ((n / 1000 % 86400000 : Nat) : Int) = ((n / 1000 % 86400000 : Nat) : Int) := by
    apply wrap32_eq_self
    · omega
    · exact_mod_cast hmQ
  rw [hw1, hw2, wrap32_eq_self _ hd0 hd1]

/-- Witness for C5 (amended) at the spec's scenario 5:
`P1Y2M3D 04:05:06.789012` = months 14, days 3, μs 14 706 789 012, which
encodes as little-endian `(14, 3, 14706789)`. -/
theorem C5_interval_encoding_amended_witness :
    intervalMyFrom ⟨14706789012, 3, 14⟩ = specIntervalBytes ⟨14706789012, 3, 14⟩
    ∧ intervalMyFrom ⟨14706789012, 3, 14⟩
        = i32ToLeBytes 14 ++ i32ToLeBytes 3 ++ i32ToLeBytes 14706789 :=
  ⟨C5_interval_encoding_amended ⟨14706789012, 3, 14⟩ (by decide) (by decide)
      (by decide) (by decide),
   by decide⟩

/-! ## Numeric decimal conversion (`src/cli/src/datatypes/numeric.rs`,
`postgres_cloner.rs` `resolve_numeric`) -/

/-- Physical Parquet type chosen by `resolve_numeric`
(`postgres_cloner.rs:643`). -/
inductive PqPhysicalType where
  | int32
  | int64
  | byteArray
deriving Repr, DecidableEq

/-- The storage selection of `resolve_numeric`: INT32 for precision ≤ 9,
INT64 for ≤ 18, otherwise BYTE_ARRAY. -/
def resolveNumericPhysicalType (precision : Nat) : PqPhysicalType :=
  if precision ≤ 9 then .int32 else if precision ≤ 18 then .int64 else .byteArray

/-- `convert_decimal_to_int` (`numeric.rs:18`): `with_prec`/`with_scale`
belong to the external `pg_bigdecimal` library, so the function is modelled
from the point where the scaled big integer exists; `try_into` succeeds iff
that integer fits the target integer type's range `[lo, hi]`, and the error
branch prints a warning to stderr and yields `None` (`.ok()` after
`map_err`).  The `Bool` records that the warning was printed. -/
def convert_decimal_to_int (scaledInt lo hi : Int) : Option Int × Bool :=
  if lo ≤ scaledInt ∧ scaledInt ≤ hi then (some scaledInt, false) else (none, true)

/-- `PgNumeric`: the payload `n` is `None` for NaN, otherwise the
`BigDecimal`, modelled by its scaled integer. -/
structure PgNumericM where
  n : Option Int

/-- Modelled from the spec: `UnwrapOptionAppender` is used by
`new_decimal_int_appender` (`numeric.rs:42`) but its definition is not in
the provided sources.  Per the spec the decimal conversion "fails softly to
NULL", i.e. the appender over `Option T` forwards `Some` values and writes
NULL for `None` — exactly the trait's default `copy_value_opt` dispatch
(`interface.rs:18`). -/
def unwrapOptionAppender {σ β : Type} (inner : Appender σ β) :
    Appender σ (Option β) where
  max_dl := inner.max_dl
  max_rl := inner.max_rl
  copy_value := fun s ri v => inner.copy_value_opt s ri v
  write_null := inner.write_null

/-- `new_decimal_int_appender` (`numeric.rs:38`): preprocess the
`PgNumeric` into the converted `Option Int` and feed it through
`UnwrapOptionAppender` over a generic column appender (identity conversion,
`RealMemorySize` 4 as for `i32`). -/
def new_decimal_int_appender (lo hi maxDl maxRl : Int) :
    Appender (GCAState Int) PgNumericM :=
  preprocessAppender
    (fun v => match v.n with
      | some n => (convert_decimal_to_int n lo hi).1
      | none => none)
    (unwrapOptionAppender (gcaAppender maxDl maxRl id (fun _ => 4)))

/-- Whether `convert_decimal_to_int` printed its warning while this value
was appended. -/
def decimalWarned (lo hi : Int) (v : PgNumericM) : Bool :=
  match v.n with
  | some n => (convert_decimal_to_int n lo hi).2
  | none => false

/-- **C6**: with `decimal` numeric handling, precision ≤ 9 (resp. ≤ 18)
selects INT32 (resp. INT64) storage; a value whose scaled integer falls
outside the target range prints the warning, leaves the value buffer
untouched and writes one NULL record at `max_dl − 1`, and the appender
returns normally (processing continues); an in-range value is written at
`max_dl` with no warning. -/
theorem C6_decimal_overflow_soft_null (lo hi maxDl maxRl : Int)
    (hdl : 0 < maxDl) (s : GCAState Int) (ri : LevelIndexList) (scaled : Int)
    (hof : ¬(lo ≤ scaled ∧ scaled ≤ hi)) :
    (∀ p : Nat, p ≤ 9 → resolveNumericPhysicalType p = .int32)
    ∧ (∀ p : Nat, 10 ≤ p → p ≤ 18 → resolveNumericPhysicalType p = .int64)
    ∧ decimalWarned lo hi ⟨some scaled⟩ = true
    ∧ ((new_decimal_int_appender lo hi maxDl maxRl).copy_value s ri
        ⟨some scaled⟩).1.column = s.column
    ∧ ((new_decimal_int_appender lo hi maxDl maxRl).copy_value s ri
        ⟨some scaled⟩).1.dls = s.dls ++ [maxDl - 1]
    ∧ (∀ k : Int, lo ≤ k → k ≤ hi →
        decimalWarned lo hi ⟨some k⟩ = false
        ∧ ((new_decimal_int_appender lo hi maxDl maxRl).copy_value s ri
            ⟨some k⟩).1.column = s.column ++ [k]
        ∧ ((new_decimal_int_appender lo hi maxDl maxRl).copy_value s ri
            ⟨some k⟩).1.dls = s.dls ++ [maxDl]) := by
  refine ⟨?_, ?_, ?_, ?_, ?_, ?_⟩
  · intro p hp
    simp [resolveNumericPhysicalType, hp]
  · intro p hp1 hp2
    simp [resolveNumericPhysicalType, hp2]
    omega
  · simp [decimalWarned, convert_decimal_to_int, hof]
  · by_cases hrl : 0 < maxRl <;>
      simp [new_decimal_int_appender, preprocessAppender, unwrapOptionAppender,
        Appender.copy_value_opt, convert_decimal_to_int, hof, gcaAppender, hrl]
  · by_cases hrl : 0 < maxRl <;>
      simp [new_decimal_int_appender, preprocessAppender, unwrapOptionAppender,
        Appender.copy_value_opt, convert_decimal_to_int, hof, gcaAppender, hrl]
  · intro k hk1 hk2
    refine ⟨?_, ?_, ?_⟩
    · simp [decimalWarned, convert_decimal_to_int, hk1, hk2]
    · by_cases hrl : 0 < maxRl <;>
        simp [new_decimal_int_appender, preprocessAppender, unwrapOptionAppender,
          Appender.copy_value_opt, convert_decimal_to_int, hk1, hk2, gcaAppender,
          hrl, hdl]
    · by_cases hrl : 0 < maxRl <;>
        simp [new_decimal_int_appender, preprocessAppender, unwrapOptionAppender,
          Appender.copy_value_opt, convert_decimal_to_int, hk1, hk2, gcaAppender,
          hrl, hdl]

/-- Witness for C6: INT32 bounds, a top-level column (`max_dl = 1`,
`max_rl = 0`), and `scaled = 2^31` which does not fit an `i32`. -/
theorem C6_decimal_overflow_soft_null_witness :
    decimalWarned (-(2 ^ 31)) (2 ^ 31 - 1) ⟨some (2 ^ 31)⟩ = true
    ∧ ((new_decimal_int_appender (-(2 ^ 31)) (2 ^ 31 - 1) 1 0).copy_value
        (GCAState.new Int 0) (LevelIndexList.root 0) ⟨some (2 ^ 31)⟩).1.dls = [0] :=
  have h := C6_decimal_overflow_soft_null (-(2 ^ 31)) (2 ^ 31 - 1) 1 0
    (by decide) (GCAState.new Int 0) (LevelIndexList.root 0) (2 ^ 31) (by decide)
  ⟨h.2.2.1, by
    have h5 := h.2.2.2.2.1
    simpa [GCAState.new] using h5⟩

/-! ## Enum to 1-based int mapping (`postgres_cloner.rs:376`) -/

/-- The planner's enum mapping loop: `mapping.insert(label, i as i32 + 1)`
for each `(i, label)` of the declared order.  The `HashMap` is modelled as
an association list built in order; PostgreSQL enum labels are distinct, so
first-match lookup agrees with the hash map. -/
def enumIntMappingFrom (i : Int) : List String → List (String × Int)
  | [] => []
  | l :: ls => (l, i + 1) :: enumIntMappingFrom (i + 1) ls

/-- The map built at planning time (`map_schema_column`, `Kind::Enum`,
`SchemaSettingsEnumHandling::Int`). -/
def enumIntMapping (labels : List String) : List (String × Int) :=
  enumIntMappingFrom 0 labels

/-- The captured `convert` closure: `mapping.get(&e.name)`; a label missing
from the map panics (`unwrap_or_else`), modelled as `none`. -/
def enumIntConvert (labels : List String) (name : String) : Option Int :=
  (enumIntMapping labels).lookup name

theorem lookup_enumIntMappingFrom_get (labels : List String) (start : Int)
    (hnd : labels.Nodup) (i : Nat) (h : i < labels.length) :
    (enumIntMappingFrom start labels).lookup (labels.get ⟨i, h⟩)
      = some (start + i + 1) := by
  induction labels generalizing start i with
  | nil => simp at h
  | cons l ls ih =>
      cases i with
      | zero =>
          simp [enumIntMappingFrom, List.lookup]
      | succ j =>
          have hj : j < ls.length := by simpa using h
          have hmem : ls.get ⟨j, hj⟩ ∈ ls := List.get_mem ls j hj
          have hne : ls.get ⟨j, hj⟩ ≠ l := by
            intro he
            exact (List.nodup_cons.mp hnd).1 (he ▸ hmem)
          have hb : (ls.get ⟨j, hj⟩ == l) = false := by simpa using hne
          simp only [enumIntMappingFrom, List.lookup, List.get, hb]
          rw [ih (start + 1) (List.nodup_cons.mp hnd).2 j hj]
          congr 1
          push_cast
          ring

theorem lookup_enumIntMappingFrom_notMem (labels : List String) (start : Int)
    (name : String) (h : name ∉ labels) :
    (enumIntMappingFrom start labels).lookup name = none := by
  induction labels generalizing start with
  | nil => rfl
  | cons l ls ih =>
      have h2 : name ≠ l ∧ name ∉ ls := by
        simp only [List.mem_cons] at h
        push_neg at h
        exact h
      have hb : (name == l) = false := by simpa using h2.1
      simp only [enumIntMappingFrom, List.lookup, hb]
      exact ih (start + 1) h2.2

/-- **C7**: with `int` enum handling the planner's map sends the label at
declared position `i` (0-based) to `i + 1`, so `convert` returns the
1-based index for every declared label, and a label absent from the map is
a fatal error (`none` models the panic) — never a silent substitute. -/
theorem C7_enum_int_one_based (labels : List String) (hnd : labels.Nodup) :
    (∀ i (h : i < labels.length),
        enumIntConvert labels (labels.get ⟨i, h⟩) = some ((i : Int) + 1))
    ∧ (∀ name, name ∉ labels → enumIntConvert labels name = none) := by
  constructor
  · intro i h
    have := lookup_enumIntMappingFrom_get labels 0 hnd i h
    simpa [enumIntConvert, enumIntMapping] using this
  · intro name hname
    exact lookup_enumIntMappingFrom_notMem labels 0 name hname

/-- Witness for C7: the enum `("a", "b", "c")` maps `"b"` to 2 and rejects
`"z"`. -/
theorem C7_enum_int_one_based_witness :
    enumIntConvert ["a", "b", "c"] "b" = some 2
    ∧ enumIntConvert ["a", "b", "c"] "z" = none :=
  have h := C7_enum_int_one_based ["a", "b", "c"] (by decide)
  ⟨h.1 1 (by decide), h.2 "z" (by decide)⟩

/-! ## Row-group writer (`src/cli/src/parquet_writer.rs`) -/

/-- `WriterSettings` (`parquet_writer.rs:17`). -/
structure WriterSettings where
  row_group_byte_limit : Nat
  row_group_row_limit : Nat

/-- The state of `ParquetRowWriter` relevant to row-group flushing, with
two ghost observers: `buffer` holds the indices of the rows appended since
the last flush (the rows whose records sit in the appender buffers) and
`flushed` the row-index lists of the row groups written so far (what each
`flush_group` drained into one row group). -/
structure WriterState where
  rows : Nat
  groups : Nat
  current_group_bytes : Nat
  current_group_rows : Nat
  buffer : List Nat
  flushed : List (List Nat)

/-- The writer as constructed by `ParquetRowWriter::new`. -/
def WriterState.initial : WriterState := ⟨0, 0, 0, 0, [], []⟩

/-- `flush_group` (`parquet_writer.rs:65`): drain all buffered rows into one
row group and reset the per-group counters. -/
def flush_group (w : WriterState) : WriterState :=
  { w with
    groups := w.groups + 1
    current_group_bytes := 0
    current_group_rows := 0
    buffer := []
    flushed := w.flushed ++ [w.buffer] }

/-- `write_row` (`parquet_writer.rs:86`): append the whole row through the
root appender (whose byte estimate is `bytes`), bump the counters, then
flush iff a limit has been reached.  The threshold check runs only after
the entire row was appended, so a flush never splits a row. -/
def write_row (st : WriterSettings) (w : WriterState) (bytes : Nat) : WriterState :=
  let w1 : WriterState :=
    { w with
      rows := w.rows + 1
      current_group_bytes := w.current_group_bytes + bytes
      current_group_rows := w.current_group_rows + 1
      buffer := w.buffer ++ [w.rows] }
  if st.row_group_byte_limit ≤ w1.current_group_bytes
      ∨ st.row_group_row_limit ≤ w1.current_group_rows then
    flush_group w1
  else w1

/-- Feed a sequence of rows (their byte estimates) to the writer. -/
def write_rows (st : WriterSettings) : WriterState → List Nat → WriterState
  | w, [] => w
  | w, b :: bs => write_rows st (write_row st w b) bs

/-- `ParquetRowWriter::close` (`parquet_writer.rs:155`): always flush one
final row group. -/
def writer_close (w : WriterState) : WriterState := flush_group w

theorem write_row_partition (st : WriterSettings) (w : WriterState) (b : Nat)
    (h : w.flushed.flatten ++ w.buffer = List.range w.rows) :
    (write_row st w b).flushed.flatten ++ (write_row st w b).buffer
      = List.range (write_row st w b).rows
    ∧ (write_row st w b).rows = w.rows + 1 := by
  have hstep : (w.flushed.flatten ++ (w.buffer ++ [w.rows])) = List.range (w.rows + 1) := by
    rw [List.range_succ, ← h, List.append_assoc]
  by_cases hf : st.row_group_byte_limit ≤ w.current_group_bytes + b
      ∨ st.row_group_row_limit ≤ w.current_group_rows + 1
  · constructor
    · simp only [write_row, flush_group, hf, if_pos]
      simpa using hstep
    · simp [write_row, flush_group, hf]
  · constructor
    · simp only [write_row, hf, if_neg, not_false_iff]
      simpa using hstep
    · simp [write_row, hf]

theorem write_rows_partition (st : WriterSettings) (bs : List Nat)
    (w : WriterState) (h : w.flushed.flatten ++ w.buffer = List.range w.rows) :
    (write_rows st w bs).flushed.flatten ++ (write_rows st w bs).buffer
      = List.range ((write_rows st w bs).rows)
    ∧ (write_rows st w bs).rows = w.rows + bs.length := by
  induction bs generalizing w with
  | nil => exact ⟨h, by simp [write_rows]⟩
  | cons b bs ih =>
      have hr := write_row_partition st w b h
      have := ih (write_row st w b) hr.1
      refine ⟨this.1, ?_⟩
      rw [write_rows, this.2, hr.2]
      simp
      omega

/-- **C8**: a row-group flush triggers exactly when, after appending a whole
row, the byte estimate or the row count reaches its limit (the triggering
row is included in the group flushed); across any input the flushed groups
partition the rows in arrival order with no row split between groups;
`close` always flushes one final group, so a zero-row input yields exactly
one empty row group. -/
theorem C8_row_group_boundaries (st : WriterSettings) :
    (∀ w b, (write_row st w b).groups = w.groups + 1
        ↔ (st.row_group_byte_limit ≤ w.current_group_bytes + b
           ∨ st.row_group_row_limit ≤ w.current_group_rows + 1))
    ∧ (∀ w b,
        (st.row_group_byte_limit ≤ w.current_group_bytes + b
         ∨ st.row_group_row_limit ≤ w.current_group_rows + 1) →
        (write_row st w b).flushed = w.flushed ++ [w.buffer ++ [w.rows]]
        ∧ (write_row st w b).buffer = [])
    ∧ (∀ bs, (writer_close (write_rows st WriterState.initial bs)).flushed.flatten
        = List.range bs.length)
    ∧ (writer_close (write_rows st WriterState.initial [])).flushed = [[]]
    ∧ (∀ bs, 1 ≤ (writer_close (write_rows st WriterState.initial bs)).groups) := by
  refine ⟨?_, ?_, ?_, ?_, ?_⟩
  · intro w b
    by_cases hf : st.row_group_byte_limit ≤ w.current_group_bytes + b
        ∨ st.row_group_row_limit ≤ w.current_group_rows + 1
    · simp [write_row, flush_group, hf]
    · simp [write_row, hf]
  · intro w b hf
    constructor
    · simp [write_row, flush_group, hf]
    · simp [write_row, flush_group, hf]
  · intro bs
    have h := write_rows_partition st bs WriterState.initial (by simp [WriterState.initial])
    have hrows : (write_rows st WriterState.initial bs).rows = bs.length := by
      rw [h.2]; simp [WriterState.initial]
    simp only [writer_close, flush_group]
    rw [List.flatten_append]
    simpa [hrows] using h.1
  · rfl
  · intro bs
    simp [writer_close, flush_group]

/-- Witness for C8: with a 10-byte limit, the first 10-byte row triggers a
flush and lands in the flushed group. -/
theorem C8_row_group_boundaries_witness :
    (write_row ⟨10, 1000⟩ WriterState.initial 10).flushed = [[0]]
    ∧ (write_row ⟨10, 1000⟩ WriterState.initial 10).buffer = [] :=
  have h := (C8_row_group_boundaries ⟨10, 1000⟩).2.1 WriterState.initial 10
    (by left; simp [WriterState.initial])
  ⟨by simpa [WriterState.initial] using h.1, h.2⟩

/-! ## Range decoding (`pg_custom_types.rs:101`) and the range struct
appender (`postgres_cloner.rs`, `Kind::Range`) -/

/-- The decoded `PgRawRange` (bounds kept as raw element bytes; the element
`FromSql` decoding is external to this component). -/
structure PgRawRangeM where
  lower : Option (List Nat)
  upper : Option (List Nat)
  lower_inclusive : Bool
  upper_inclusive : Bool
  is_empty : Bool
deriving Repr, DecidableEq

/-- Read one bound of the wire range: skipped entirely when the flags say
so, otherwise a 4-byte big-endian length (negative = NULL bound) followed
by that many payload bytes.  Returns the bound and the remaining stream;
`none` models a read past the end of the buffer. -/
def readRangeBound (skip : Bool) (raw : List Nat) :
    Option (Option (List Nat) × List Nat) :=
  if skip then some (none, raw)
  else
    match read_pg_len raw with
    | none => none
    | some len =>
        if len < 0 then some (none, raw.drop 4)
        else
          let lenU := i32AsUsize len
          if 4 + lenU ≤ raw.length then
            some (some ((raw.drop 4).take lenU), raw.drop (4 + lenU))
          else none

/-- `PgRawRange::from_sql` (`pg_custom_types.rs:101`): flags byte, optional
bounds, final `assert_eq!(0, raw.len())`; an empty range is normalised to
`{lower: None, upper: None, false, false, true}` regardless of the other
flag bits. -/
def rangeFromSql (raw : List Nat) : Option PgRawRangeM :=
  match raw with
  | [] => none
  | flags :: rest =>
      let is_empty := flags &&& 0x01 != 0
      let lower_inclusive := flags &&& 0x02 != 0
      let upper_inclusive := flags &&& 0x04 != 0
      let lower_inf := flags &&& 0x08 != 0
      let upper_inf := flags &&& 0x10 != 0
      let lower_null := flags &&& 0x20 != 0
      let upper_null := flags &&& 0x40 != 0
      match readRangeBound (is_empty || lower_inf || lower_null) rest with
      | none => none
      | some (lower, rest1) =>
          match readRangeBound (is_empty || upper_inf || upper_null) rest1 with
          | none => none
          | some (upper, rest2) =>
              if rest2.length = 0 then
                if is_empty then
                  some ⟨none, none, false, false, true⟩
                else
                  some ⟨lower, upper, lower_inclusive, upper_inclusive, false⟩
              else none

/-- The appender the planner builds for `Kind::Range`
(`postgres_cloner.rs:441`): a static merged appender over the decoded
range with five children — the element appenders for `lower`/`upper`
(reading bound 0 resp. 1 through `PgRawRange`'s `ab_get`,
`pg_custom_types.rs:245`, at `max_dl = dl + 2`) and three bool appenders
fed by projections — wrapped by `wrap_pg_row_reader` reading
`Option<PgRawRange>` out of the row.  The leaves record the calls they
receive. -/
def rangeColumnAppender (dl rl : Int) :
    Appender (((((Unit × List (AppCall (List Nat))) × List (AppCall (List Nat)))
      × List (AppCall Bool)) × List (AppCall Bool)) × List (AppCall Bool))
      (Option PgRawRangeM) :=
  basicPgRowColumnAppender (fun r => r)
    (staticMergedImpl
      (staticMergedImpl
        (staticMergedImpl
          (staticMergedImpl
            (staticMergedImpl (staticMergedNil (dl + 1) rl)
              (basicPgRowColumnAppender (fun (r : PgRawRangeM) => r.lower)
                (recordingAppender (dl + 2) rl)))
            (basicPgRowColumnAppender (fun (r : PgRawRangeM) => r.upper)
              (recordingAppender (dl + 2) rl)))
          (preprocessAppender (fun (r : PgRawRangeM) => r.lower_inclusive)
            (recordingAppender (dl + 2) rl)))
        (preprocessAppender (fun (r : PgRawRangeM) => r.upper_inclusive)
          (recordingAppender (dl + 2) rl)))
      (preprocessAppender (fun (r : PgRawRangeM) => r.is_empty)
        (recordingAppender (dl + 2) rl)))

set_option maxRecDepth 4000 in
/-- **C9**: any wire range with the EMPTY flag (0x1) set decodes to
`{lower: NULL, upper: NULL, lower_inclusive: false, upper_inclusive: false,
is_empty: true}` regardless of the other flag bits; feeding that value to
the range struct column emits NULL records (at the bound columns' own
`max_dl − 1`) for `lower`/`upper` and the values `false/false/true` for
the three flag columns; a NULL range input emits exactly one NULL record
per child at the struct's `max_dl − 1`. -/
theorem C9_range_empty_and_null (dl rl : Int) (ri : LevelIndexList)
    (t1 t2 : List (AppCall (List Nat))) (t3 t4 t5 : List (AppCall Bool)) :
    (∀ flags : Nat, flags < 256 → (flags &&& 1 != 0) = true →
        rangeFromSql [flags] = some ⟨none, none, false, false, true⟩)
    ∧ ((rangeColumnAppender dl rl).copy_value ((((((), t1), t2), t3), t4), t5) ri
        (some ⟨none, none, false, false, true⟩)).1
      = ((((((), t1 ++ [AppCall.null ri (dl + 2 - 1)]),
            t2 ++ [AppCall.null ri (dl + 2 - 1)]),
            t3 ++ [AppCall.value ri false]),
            t4 ++ [AppCall.value ri false]),
            t5 ++ [AppCall.value ri true])
    ∧ ((rangeColumnAppender dl rl).copy_value ((((((), t1), t2), t3), t4), t5) ri none).1
      = ((((((), t1 ++ [AppCall.null ri (dl + 1 - 1)]),
            t2 ++ [AppCall.null ri (dl + 1 - 1)]),
            t3 ++ [AppCall.null ri (dl + 1 - 1)]),
            t4 ++ [AppCall.null ri (dl + 1 - 1)]),
            t5 ++ [AppCall.null ri (dl + 1 - 1)])
    := by
  refine ⟨by decide, rfl, rfl⟩

/-- Witness for C9: the one-byte payload `0x01` ('empty' with no other
bits) decodes to the normalised empty range. -/
theorem C9_range_empty_and_null_witness :
    rangeFromSql [1] = some ⟨none, none, false, false, true⟩ :=
  (C9_range_empty_and_null 0 0 (LevelIndexList.root 0) [] [] [] [] []).1 1
    (by decide) (by decide)

/-! ## Connection-argument debug formatting (`src/cli/src/main.rs:103`) -/

/-- `PostgresConnArgs` (`main.rs:81`); `port` is a `u16`, `sslmode` an enum
and `ssl_root_cert` a path list, all modelled by their printable form. -/
structure PostgresConnArgs where
  host : String
  user : Option String
  dbname : String
  port : Option Nat
  password : Option String
  sslmode : Option String
  ssl_root_cert : Option (List String)

/-- Rust `Debug` of `Option<T>` from the formatter of `T`. -/
def debugOption {α : Type} (fmt : α → String) : Option α → String
  | some v => "Some(" ++ fmt v ++ ")"
  | none => "None"

/-- Rust `Debug` of a string. -/
def debugString (s : String) : String := "\"" ++ s ++ "\""

/-- `Debug for PostgresConnArgs` (`main.rs:104`): a `debug_struct` over all
fields in declaration order, except that the password is first mapped to
the literal `"********"` when present
(`self.password.as_ref().map(|_| "********")`). -/
def postgresConnArgsDebugFmt (a : PostgresConnArgs) : String :=
  "PostgresConnArgs \x7b host: " ++ debugString a.host
    ++ ", user: " ++ debugOption debugString a.user
    ++ ", dbname: " ++ debugString a.dbname
    ++ ", port: " ++ debugOption (fun n => toString n) a.port
    ++ ", password: " ++ debugOption debugString (a.password.map (fun _ => "********"))
    ++ ", sslmode: " ++ debugOption (fun s => s) a.sslmode
    ++ ", ssl_root_cert: "
    ++ debugOption (fun l => "[" ++ String.intercalate ", " l ++ "]") a.ssl_root_cert
    ++ " \x7d"

/-- **C10**: the diagnostic `Debug` output echoed to stderr by
`handle_result` is independent of the password's characters — two argument
sets differing only in the password (with the same presence) format
identically, so the password never appears in the output; a set vs. unset
password differs only in the `Some("********")`/`None` presence marker. -/
theorem C10_password_never_printed (a : PostgresConnArgs) (p q : Option String)
    (h : p.isSome = q.isSome) :
    postgresConnArgsDebugFmt { a with password := p }
      = postgresConnArgsDebugFmt { a with password := q } := by
  cases p <;> cases q <;> simp_all [postgresConnArgsDebugFmt, debugOption]

/-- Witness for C10: two different concrete passwords yield the same
diagnostic line. -/
theorem C10_password_never_printed_witness :
    postgresConnArgsDebugFmt
        ⟨"db.example.com", some "alice", "store", some 5432, some "hunter2",
          none, none⟩
      = postgresConnArgsDebugFmt
        ⟨"db.example.com", some "alice", "store", some 5432,
          some "correct horse battery staple", none, none⟩ :=
  C10_password_never_printed
    ⟨"db.example.com", some "alice", "store", some 5432, none, none, none⟩
    (some "hunter2") (some "correct horse battery staple") rfl
